import Mathlib

/-
Verification of the MagPySV denoising core against its specification.

The development shallowly embeds the four exposed operations of the package
(`calculate_sv` and `calculate_residuals` from magpysv/tools.py,
`detect_outliers` and `eigenvalue_analysis` from magpysv/denoise.py).

Modelling conventions:
* A pandas/numpy cell is an `NVal := Option ℚ`; `none` models the IEEE NaN
  used throughout the package as the "no value" marker.  Elementwise
  arithmetic on cells propagates `none` exactly as IEEE arithmetic
  propagates NaN (any operation with a NaN operand yields NaN).
* Floating point numbers are modelled by exact rationals; the claims under
  study are about data flow, ordering, alignment and missing-value policy,
  none of which depend on rounding.
* Dates are modelled as needed per function: an integer key for the
  residual join, and a (month index, day) pair for the secular-variation
  date arithmetic (pandas DateOffset month arithmetic is exactly integer
  arithmetic on the month index).
-/

/-- A numpy/pandas cell: `none` models NaN ("no value"). -/
abbrev NVal := Option ℚ

/-- IEEE-style addition on cells: NaN propagates. -/
def nadd : NVal → NVal → NVal
  | some a, some b => some (a + b)
  | _, _ => none

/-- IEEE-style subtraction on cells: NaN propagates. -/
def nsub : NVal → NVal → NVal
  | some a, some b => some (a - b)
  | _, _ => none

/-- IEEE-style multiplication on cells: NaN propagates. -/
def nmul : NVal → NVal → NVal
  | some a, some b => some (a * b)
  | _, _ => none

/-- Absolute difference of two cells, `(a - b).abs()` in pandas; NaN
propagates.  The absolute value is spelled with an explicit comparison so
that concrete instances evaluate inside the kernel. -/
def nsubAbs : NVal → NVal → NVal
  | some a, some b => some (if b ≤ a then a - b else b - a)
  | _, _ => none

theorem nsubAbs_some (a b : ℚ) : nsubAbs (some a) (some b) = some |a - b| := by
  simp only [nsubAbs]
  congr 1
  rcases le_or_lt b a with h | h
  · rw [if_pos h, abs_of_nonneg (by linarith)]
  · rw [if_neg (not_le.2 h), abs_of_neg (by linarith)]
    ring

/-- The value a masked/NaN cell contributes once numpy fills it with zero
(`np.ma.dot` and masked sums replace masked entries by 0). -/
def fill0 (x : NVal) : ℚ := x.getD 0

theorem nsub_none_left (x : NVal) : nsub none x = none := rfl

theorem nadd_none_left (x : NVal) : nadd none x = none := rfl

theorem nsub_some_zero (x : NVal) : nsub x (some 0) = x := by
  cases x <;> simp [nsub]

theorem nadd_some_zero_left (x : NVal) : nadd (some 0) x = x := by
  cases x <;> simp [nadd]

/-- Subtracting twice is subtracting the NaN-propagating sum: holds for all
cells, including every NaN case. -/
theorem nsub_nsub (a b c : NVal) : nsub (nsub a b) c = nsub a (nadd b c) := by
  cases a <;> cases b <;> cases c <;> simp [nsub, nadd]
  ring

/-! ## ResidualAligner: magpysv/tools.py -/

/-- A row of numeric values, one per (observatory, axis) column. -/
abbrev Vec (N : ℕ) := Fin N → ℚ

/-- A dataframe with a leading date column and `N` numeric columns, one row
per list entry, modelled as (date key, values) rows. -/
abbrev Frame (N : ℕ) := List (ℤ × Vec N)

/-- The residual table computed by `tools.calculate_residuals` (tools.py
lines 71-79).

Source trace:
* `dates = obs_data['date']` saves the obs date column;
* `model_data = model_data[model_data['date'].isin(dates)]` rebinds
  `model_data` to a filtered copy: only the model is filtered, the obs
  rows are NOT restricted to shared dates;
* both frames drop their date column, leaving the value arrays;
* `obs_data.values - model_data.values` subtracts POSITIONALLY under numpy
  broadcasting: defined when row counts are equal, or when either operand
  has exactly one row (which is then broadcast); any other mismatch raises
  a ValueError, modelled as `none`. -/
def residual_values (N : ℕ) (obs_data model_data : Frame N) :
    Option (List (Vec N)) :=
  let dates := obs_data.map Prod.fst
  let model1 := model_data.filter (fun r => decide (r.1 ∈ dates))
  let obsVals := obs_data.map Prod.snd
  let modelVals := model1.map Prod.snd
  if obsVals.length = modelVals.length then
    some (List.zipWith (fun a b => a - b) obsVals modelVals)
  else if modelVals.length = 1 then
    some (obsVals.map (fun a => a - modelVals.headI))
  else if obsVals.length = 1 then
    some (modelVals.map (fun b => obsVals.headI - b))
  else none

/-- Embedding of `tools.calculate_residuals` (tools.py lines 59-82),
including its in-place effects on the callers frames.

Returns (residual rows or failure, obs frame after the call, model frame
after the call).  The in-place effects, in source order:
* `obs_data.drop(obs_data.columns[[0]], ..., inplace=True)` removes the
  date column from the CALLER'S obs frame;
* the positional subtraction (see `residual_values`) may raise here — in
  that case the function aborts and the caller's obs frame is left
  WITHOUT its date column (`Sum.inr`: only the value rows remain);
* only when the subtraction succeeds does `obs_data.insert(0, 'date',
  dates)` run, putting the saved date column back at position 0 and
  restoring the caller's obs frame (`Sum.inl`);
* `model_data` was rebound to a filtered copy before its in-place drop, so
  the caller's model frame is untouched on every path. -/
def calculate_residuals (N : ℕ) (obs_data model_data : Frame N) :
    Option (List (Vec N)) × (Frame N ⊕ List (Vec N)) × Frame N :=
  (residual_values N obs_data model_data,
   match residual_values N obs_data model_data with
   | some _ => Sum.inl ((obs_data.map Prod.fst).zip (obs_data.map Prod.snd))
   | none => Sum.inr (obs_data.map Prod.snd),
   model_data)

/-- Re-zipping the projections of a list of pairs gives the list back. -/
theorem zip_map_fst_snd_eq {α β : Type} (l : List (α × β)) :
    (l.map Prod.fst).zip (l.map Prod.snd) = l := by
  induction l with
  | nil => rfl
  | cons a l ih => simp [ih]

/-- Subtracting matching rows and adding them back is the identity, rowwise. -/
theorem zipWith_sub_add {N : ℕ} (xs : List (Vec N)) (ys : List (ℤ × Vec N))
    (h : xs.length = ys.length) :
    List.zipWith (fun v s => v + s.2)
      (List.zipWith (fun a b => a - b) xs (ys.map Prod.snd)) ys = xs := by
  induction xs generalizing ys with
  | nil => simp
  | cons x xs ih =>
    cases ys with
    | nil => simp at h
    | cons y ys =>
      simp only [List.map_cons, List.zipWith_cons_cons, List.length_cons] at h ⊢
      rw [sub_add_cancel, ih ys (by omega)]

/-- A date as pandas month arithmetic sees it: (month index, day of month).
`DateOffset(months=k, day=1)` subtraction moves the month index back by `k`;
the subsequent `.replace(day=...)` sets the day field. -/
abbrev MDate := ℤ × ℤ

/-- A field-data row: date and the three axis columns X, Y, Z. -/
abbrev FieldRow := MDate × (Fin 3 → ℚ)

/-- Embedding of `tools.calculate_sv` (tools.py lines 18-56).

Source trace, for `mean_spacing = s`:
* the SV date column is the field date column shifted back by
  `int(np.floor(s/2))` months, with the day then replaced by 1 when `s` is
  odd and by 15 when `s` is even;
* each axis column is `(12/s) * column.diff(periods=s)`, i.e. row `t`
  minus row `t - s`, scaled to nT/yr;
* `obs_sv.drop(obs_sv.head(s).index)` removes the first `s` rows (exactly
  the rows whose difference had no history).
The surviving rows are the positions `s, s+1, ...` of the input, obtained
here by zipping the input shifted by `s` against itself.  The function is
used with `1 ≤ s` (for `s = 0` the source divides by zero). -/
def calculate_sv (obs_data : List FieldRow) (s : ℕ) : List FieldRow :=
  (List.zip (obs_data.drop s) obs_data).map fun p =>
    ((p.1.1.1 - (s / 2 : ℕ), if s % 2 = 1 then 1 else 15),
     fun a => (12 / (s : ℚ)) * (p.1.2 a - p.2.2 a))

/-- Indexing a shifted zip of a list against itself. -/
theorem zip_drop_getD {α : Type} [Inhabited α] (l : List α) (s i : ℕ)
    (h : s + i < l.length) :
    ((l.drop s).zip l).getD i default = (l.getD (s + i) default, l.getD i default) := by
  have hd : i < (l.drop s).length := by simp [List.length_drop]; omega
  have hz : i < ((l.drop s).zip l).length := by
    simp [List.length_zip, List.length_drop]; omega
  rw [List.getD_eq_getElem _ _ hz, List.getElem_zip,
    List.getD_eq_getElem _ _ (by omega), List.getD_eq_getElem _ _ (by omega)]
  congr 1
  rw [List.getElem_drop]

/-- C6 (amended): for `1 ≤ s < length`, `calculate_sv` drops the first `s`
samples and returns, for each remaining position `t = s + i`, the axis
values `(12/s) * (field[t] - field[t-s])`, timestamped at field-date[t]
shifted BACK by `⌊s/2⌋` months, with day 15 when `s` is even and day 1 when
`s` is odd.  On contiguous monthly data this is the exact midpoint month
for even `s`; for odd `s` it is the month just above the midpoint, which
equals the later sample's month only when `s = 1`. -/
theorem calculate_sv_rows (obs : List FieldRow) (s : ℕ)
    (_hs : 1 ≤ s) (h2 : s < obs.length) :
    (calculate_sv obs s).length = obs.length - s ∧
    ∀ i, i < obs.length - s →
      (calculate_sv obs s).getD i default =
        (((obs.getD (s + i) default).1.1 - (s / 2 : ℕ),
          if s % 2 = 1 then 1 else 15),
         fun a => (12 / (s : ℚ)) *
           ((obs.getD (s + i) default).2 a - (obs.getD i default).2 a)) := by
  have hlen : (calculate_sv obs s).length = obs.length - s := by
    simp [calculate_sv, List.length_zip, List.length_drop]
  refine ⟨hlen, fun i hi => ?_⟩
  have hz : i < ((obs.drop s).zip obs).length := by
    simp [List.length_zip, List.length_drop]; omega
  have hm : i < (calculate_sv obs s).length := by omega
  have hpair : ((obs.drop s).zip obs).getD i default =
      (obs.getD (s + i) default, obs.getD i default) :=
    zip_drop_getD obs s i (by omega)
  rw [List.getD_eq_getElem _ _ hz] at hpair
  rw [List.getD_eq_getElem _ _ hm]
  simp only [calculate_sv, List.getElem_map]
  rw [hpair]

/-- Concrete four-month series used against the C6 timestamp wording. -/
def svCounterObs : List FieldRow :=
  [((0, 1), fun _ => 0), ((1, 1), fun _ => 0),
   ((2, 1), fun _ => 0), ((3, 1), fun _ => 6)]

/-- C6 counterexample: with spacing `s = 3` (odd) on consecutive monthly
data, the single output row pairs field months 3 and 0, but is timestamped
at month `3 - ⌊3/2⌋ = 2`, NOT at the later sample's month 3 as the claim
states for odd spacings. -/
theorem calculate_sv_timestamp_counterexample :
    (calculate_sv svCounterObs 3).map (fun r => r.1) = [((2 : ℤ), (1 : ℤ))] ∧
    ((2 : ℤ), (1 : ℤ)) ≠ ((3 : ℤ), (1 : ℤ)) := by
  constructor
  · decide
  · decide

/-- Two-month series used to instantiate `calculate_sv_rows`. -/
def svWitnessObs : List FieldRow :=
  [((0, 1), fun _ => 1), ((1, 1), fun _ => 3)]

theorem calculate_sv_rows_witness :
    1 ≤ 1 ∧ 1 < svWitnessObs.length ∧
    (calculate_sv svWitnessObs 1).length = svWitnessObs.length - 1 :=
  ⟨le_refl 1, by decide, (calculate_sv_rows svWitnessObs 1 (by decide) (by decide)).1⟩

/-- C5 (amended): `calculate_residuals` filters the model rows to the dates
occurring in `obs_data` and subtracts POSITIONALLY; whenever the filtered
model dates coincide, in order, with the obs dates (in particular when the
obs dates are a subset of the model dates and both are increasing), the
result is the rowwise difference, and adding the model values back
reproduces the obs values on that (common) date set. -/
theorem calculate_residuals_roundtrip (N : ℕ) (obs model : Frame N)
    (halign : (model.filter (fun r => decide (r.1 ∈ obs.map Prod.fst))).map Prod.fst
      = obs.map Prod.fst) :
    (calculate_residuals N obs model).1 =
      some (List.zipWith (fun a b => a - b) (obs.map Prod.snd)
        ((model.filter (fun r => decide (r.1 ∈ obs.map Prod.fst))).map Prod.snd)) ∧
    List.zipWith (fun v s => v + s.2)
      (List.zipWith (fun a b => a - b) (obs.map Prod.snd)
        ((model.filter (fun r => decide (r.1 ∈ obs.map Prod.fst))).map Prod.snd))
      (model.filter (fun r => decide (r.1 ∈ obs.map Prod.fst))) = obs.map Prod.snd := by
  have hlen : ((model.filter (fun r => decide (r.1 ∈ obs.map Prod.fst))).map Prod.snd).length
      = (obs.map Prod.snd).length := by
    have h := congrArg List.length halign
    simpa using h
  constructor
  · simp only [calculate_residuals, residual_values, hlen.symm, if_pos]
  · exact zipWith_sub_add _ _ (by simpa using hlen.symm)

/-- Obs table whose third date is absent from the model table. -/
def resCounterObs : Frame 1 := [(0, fun _ => 10), (1, fun _ => 20), (2, fun _ => 30)]

/-- Model table missing date 2. -/
def resCounterModel : Frame 1 := [(0, fun _ => 1), (1, fun _ => 2)]

/-- C5 counterexample: when `obs_data` holds a date that `model_data` lacks,
`calculate_residuals` does NOT inner-join (the obs rows are never filtered):
the value arrays have 3 and 2 rows and the positional subtraction fails
(numpy broadcast error), so no residual table is produced at all — the
claimed two-row difference on the common dates does not happen. -/
theorem calculate_residuals_not_inner_join :
    (calculate_residuals 1 resCounterObs resCounterModel).1 = none := by decide

/-- One-row obs table whose date the witness model contains. -/
def resWitnessObs : Frame 1 := [(5, fun _ => 7)]

/-- Two-row model table; only date 5 is shared with `resWitnessObs`. -/
def resWitnessModel : Frame 1 := [(5, fun _ => 2), (9, fun _ => 1)]

theorem calculate_residuals_roundtrip_witness :
    ((resWitnessModel.filter
        (fun r => decide (r.1 ∈ resWitnessObs.map Prod.fst))).map Prod.fst
      = resWitnessObs.map Prod.fst) ∧
    (calculate_residuals 1 resWitnessObs resWitnessModel).1 =
      some (List.zipWith (fun a b => a - b) (resWitnessObs.map Prod.snd)
        ((resWitnessModel.filter
          (fun r => decide (r.1 ∈ resWitnessObs.map Prod.fst))).map Prod.snd)) :=
  ⟨by decide,
   (calculate_residuals_roundtrip 1 resWitnessObs resWitnessModel (by decide)).1⟩

/-! ## OutlierFilter: magpysv/denoise.py, detect_outliers -/

/-- Forward fill with a carry: `last` is the most recent valid value, `run`
counts how many consecutive gap positions have already been filled from it.
A gap position is filled only while `run < L` (pandas `ffill(limit=L)`). -/
def ffillLimitAux (L : ℕ) : NVal → ℕ → List NVal → List NVal
  | _, _, [] => []
  | last, run, none :: xs =>
      (if run < L then last else none) :: ffillLimitAux L last (run + 1) xs
  | _, _, some x :: xs => some x :: ffillLimitAux L (some x) 0 xs

/-- pandas `Series.ffill(limit=L)`. -/
def ffillLimit (L : ℕ) (xs : List NVal) : List NVal := ffillLimitAux L none 0 xs

/-- Unlimited forward fill, carrying the last valid value. -/
def ffillAux : NVal → List NVal → List NVal
  | _, [] => []
  | last, none :: xs => last :: ffillAux last xs
  | _, some x :: xs => some x :: ffillAux (some x) xs

/-- pandas `Series.ffill()` (no limit). -/
def ffillList (xs : List NVal) : List NVal := ffillAux none xs

/-- pandas `Series.bfill()` (no limit): forward fill of the reversal. -/
def bfillList (xs : List NVal) : List NVal := (ffillAux none xs.reverse).reverse

/-- Insert into an ascending list of rationals. -/
def insertAsc (x : ℚ) : List ℚ → List ℚ
  | [] => [x]
  | y :: ys => if x ≤ y then x :: y :: ys else y :: insertAsc x ys

/-- Ascending insertion sort of rationals. -/
def sortAsc : List ℚ → List ℚ
  | [] => []
  | x :: xs => insertAsc x (sortAsc xs)

/-- Statistical median: middle element of the sorted values, or the mean of
the two middle elements for an even count (numpy/pandas convention). -/
def medianOfList (l : List ℚ) : ℚ :=
  let s := sortAsc l
  if l.length % 2 = 1 then s.getD (l.length / 2) 0
  else (s.getD (l.length / 2 - 1) 0 + s.getD (l.length / 2) 0) / 2

/-- pandas `Series.rolling(window=w, center=True).median()` with the default
`min_periods = w`: position `i` aggregates the slice `[i + w/2 + 1 - w,
i + w/2]`.  The start index `i + w/2 + 1 - w` equals `i - (w-1)/2` under
truncating natural division — pandas' centered-window start offset
`(w-1)//2` — for even and odd `w` alike (checked against pandas: `w = 2`
gives `[i, i+1]`, `w = 4` gives `[i-1, i+2]`); for odd `w` it is the
symmetric window `[i - w/2, i + w/2]`.  The result is NaN unless the
in-bounds window holds `w` non-NaN values. -/
def rollMedian (w : ℕ) (xs : List NVal) : List NVal :=
  (List.range xs.length).map fun i =>
    let win := (xs.take (i + w / 2 + 1)).drop (i + w / 2 + 1 - w)
    let vals := win.filterMap id
    if w ≤ vals.length then some (medianOfList vals) else none

/-- The gap-filled working copy `signal_temp` of denoise.py lines 289-296:
`signal.ffill(limit=int(window_length/2 + 1)).bfill()`. -/
def filled_signal (w : ℕ) (xs : List NVal) : List NVal :=
  bfillList (ffillLimit (w / 2 + 1) xs)

/-- The running median of denoise.py lines 298-299, edge values filled by
`.bfill().ffill()`. -/
def running_median (w : ℕ) (xs : List NVal) : List NVal :=
  ffillList (bfillList (rollMedian w (filled_signal w xs)))

/-- The absolute deviation `diff = (signal_temp - running_median).abs()`
(denoise.py line 300). -/
def deviation (w : ℕ) (xs : List NVal) : List NVal :=
  List.zipWith nsubAbs (filled_signal w xs) (running_median w xs)

/-- The rolling median absolute deviation of denoise.py lines 301-302. -/
def rolling_mad (w : ℕ) (xs : List NVal) : List NVal :=
  ffillList (bfillList (rollMedian w (deviation w xs)))

/-- IEEE comparison `deviation / mad > threshold` as numpy evaluates it
(denoise.py lines 304-315).  The deviation is an absolute value, hence
nonnegative: dividing a positive deviation by a zero MAD gives +inf, which
exceeds every (finite) threshold; 0/0 gives NaN and every comparison with
NaN is False; a NaN in either operand also compares False. -/
def zflag (d m : NVal) (threshold : ℚ) : Bool :=
  match d, m with
  | some dv, some mv => if mv = 0 then decide (0 < dv) else decide (threshold < dv / mv)
  | _, _ => false

/-- Whether position `i` is flagged as an outlier. -/
def outlier_flag (w : ℕ) (threshold : ℚ) (xs : List NVal) (i : ℕ) : Bool :=
  zflag ((deviation w xs).getD i none) ((rolling_mad w xs).getD i none) threshold

/-- Embedding of `denoise.detect_outliers` (denoise.py lines 250-317):
the ORIGINAL series with every flagged position set to NaN
(`signal.iloc[idx] = np.nan`); positions already NaN stay NaN because the
flags are computed on the filled copy while the assignment hits the
original. -/
def detect_outliers (w : ℕ) (threshold : ℚ) (xs : List NVal) : List NVal :=
  (List.range xs.length).map fun i =>
    if outlier_flag w threshold xs i then none else xs.getD i none

/-- The caller's series object after the call: `detect_outliers` assigns
NaN to the flagged rows of the caller's series IN PLACE and returns that
same object, so the post-state equals the returned series. -/
def detect_outliers_signal_after (w : ℕ) (threshold : ℚ) (xs : List NVal) : List NVal :=
  detect_outliers w threshold xs

/-- Indexing the output of `detect_outliers` inside bounds. -/
theorem detect_outliers_getD (w : ℕ) (threshold : ℚ) (xs : List NVal) (i : ℕ)
    (hi : i < xs.length) :
    (detect_outliers w threshold xs).getD i none =
      if outlier_flag w threshold xs i then none else xs.getD i none := by
  unfold detect_outliers
  rw [List.getD_eq_getElem _ _ (by simpa using hi), List.getElem_map, List.getElem_range]

/-- Values produced by pointwise absolute differences are nonnegative. -/
theorem zipWith_nsubAbs_nonneg :
    ∀ (as bs : List NVal) (i : ℕ) (dv : ℚ),
      (List.zipWith nsubAbs as bs).getD i none = some dv → 0 ≤ dv := by
  intro as
  induction as with
  | nil => intro bs i dv hd; simp at hd
  | cons a as ih =>
    intro bs i dv hd
    cases bs with
    | nil => simp at hd
    | cons b bs =>
      cases i with
      | zero =>
        rw [List.zipWith_cons_cons, List.getD_cons_zero] at hd
        cases a with
        | none => simp [nsubAbs] at hd
        | some x =>
          cases b with
          | none => simp [nsubAbs] at hd
          | some y =>
            rw [nsubAbs_some, Option.some.injEq] at hd
            rw [← hd]
            exact abs_nonneg _
      | succ i =>
        rw [List.zipWith_cons_cons, List.getD_cons_succ] at hd
        exact ih bs i dv hd

/-- Any value produced by the deviation stage is an absolute value. -/
theorem deviation_nonneg (w : ℕ) (xs : List NVal) (i : ℕ) (dv : ℚ)
    (hd : (deviation w xs).getD i none = some dv) : 0 ≤ dv :=
  zipWith_nsubAbs_nonneg (filled_signal w xs) (running_median w xs) i dv hd

/-- C10: at a position where the rolling MAD is zero, the unguarded
division flags a point if and only if its (filled) value differs from the
rolling median — a positive deviation over a zero MAD is +inf, exceeding
EVERY threshold, while a zero deviation gives 0/0 = NaN, which fails the
`> threshold` comparison for every threshold. -/
theorem mad_zero_flagging (w : ℕ) (threshold : ℚ) (xs : List NVal) (i : ℕ) (dv : ℚ)
    (hd : (deviation w xs).getD i none = some dv)
    (hm : (rolling_mad w xs).getD i none = some 0) :
    (outlier_flag w threshold xs i = true ↔ dv ≠ 0) := by
  have h0 : 0 ≤ dv := deviation_nonneg w xs i dv hd
  unfold outlier_flag
  rw [hd, hm]
  show (if (0 : ℚ) = 0 then decide (0 < dv) else decide (threshold < dv / 0)) = true ↔ dv ≠ 0
  rw [if_pos rfl, decide_eq_true_eq]
  constructor
  · intro h
    exact ne_of_gt h
  · intro h
    exact lt_of_le_of_ne h0 (Ne.symm h)

/-- The spiked series `[0, 0, 0, 5, 1, 0, 0]` used against the outlier
filter claims. -/
def spikeSeries : List NVal :=
  [some 0, some 0, some 0, some 5, some 1, some 0, some 0]

theorem mad_zero_flagging_witness :
    (deviation 3 spikeSeries).getD 3 none = some 4 ∧
    (rolling_mad 3 spikeSeries).getD 3 none = some 0 ∧
    (outlier_flag 3 1000000 spikeSeries 3 = true ↔ (4 : ℚ) ≠ 0) :=
  ⟨by with_unfolding_all decide, by with_unfolding_all decide,
   mad_zero_flagging 3 1000000 spikeSeries 3 4 (by with_unfolding_all decide)
     (by with_unfolding_all decide)⟩

/-- C8 (amended): `detect_outliers` is not idempotent (see the
counterexample); what does hold is that a run never restores a value:
every position that is "no value" in the input is "no value" in the
output, so repeated runs only shrink the set of valued points. -/
theorem detect_outliers_missing_monotone (w : ℕ) (threshold : ℚ)
    (xs : List NVal) (i : ℕ) (h : xs.getD i none = none) :
    (detect_outliers w threshold xs).getD i none = none := by
  by_cases hi : i < xs.length
  · rw [detect_outliers_getD w threshold xs i hi]
    split
    · rfl
    · exact h
  · refine List.getD_eq_default _ _ ?_
    simpa [detect_outliers, le_of_not_lt] using le_of_not_lt hi

theorem detect_outliers_missing_monotone_witness :
    ([(none : NVal)].getD 0 none = none) ∧
    (detect_outliers 3 3 [(none : NVal)]).getD 0 none = none :=
  ⟨rfl, detect_outliers_missing_monotone 3 3 [none] 0 rfl⟩

/-- C8 counterexample: running `detect_outliers` (window 3, threshold 3) a
second time on its own output flags one more point.  The first run flags
the spike at position 3; with the spike removed and forward-filled, the
rolling statistics change and the second run also flags position 4, so the
second output differs from the first. -/
theorem detect_outliers_not_idempotent :
    detect_outliers 3 3 (detect_outliers 3 3 spikeSeries) ≠
      detect_outliers 3 3 spikeSeries := by with_unfolding_all decide

/-- C9 (amended): `calculate_residuals` always leaves the caller's model
frame unchanged (it is only filtered into a fresh copy), and restores the
caller's obs frame — date column dropped in place, then re-inserted at
position 0 with the saved dates — exactly WHEN the positional subtraction
succeeds; when it raises, the insert never runs and the caller's obs frame
is left without its date column (only the value rows), a second visible
mutation.  `detect_outliers` overwrites the flagged rows of the CALLER'S
series with NaN and returns that same mutated object.  (`calculate_sv` and
`eigenvalue_analysis` only read their inputs, so there is no post-state to
trace for them.) -/
theorem input_mutation_summary (N : ℕ) (obs model : Frame N)
    (w : ℕ) (threshold : ℚ) (xs : List NVal) :
    (calculate_residuals N obs model).2.2 = model ∧
    ((calculate_residuals N obs model).1.isSome = true →
      (calculate_residuals N obs model).2.1 = Sum.inl obs) ∧
    ((calculate_residuals N obs model).1 = none →
      (calculate_residuals N obs model).2.1 = Sum.inr (obs.map Prod.snd)) ∧
    detect_outliers_signal_after w threshold xs = detect_outliers w threshold xs := by
  refine ⟨rfl, ?_, ?_, rfl⟩
  · intro h
    show (match residual_values N obs model with
      | some _ => Sum.inl ((obs.map Prod.fst).zip (obs.map Prod.snd))
      | none => Sum.inr (obs.map Prod.snd)) = Sum.inl obs
    cases hr : residual_values N obs model with
    | none =>
      rw [show (calculate_residuals N obs model).1 = residual_values N obs model
        from rfl, hr] at h
      exact absurd h (by simp)
    | some r =>
      rw [zip_map_fst_snd_eq obs]
  · intro h
    show (match residual_values N obs model with
      | some _ => Sum.inl ((obs.map Prod.fst).zip (obs.map Prod.snd))
      | none => Sum.inr (obs.map Prod.snd)) = Sum.inr (obs.map Prod.snd)
    rw [show (calculate_residuals N obs model).1 = residual_values N obs model
      from rfl] at h
    rw [h]

theorem input_mutation_summary_witness :
    (calculate_residuals 1 resWitnessObs resWitnessModel).1.isSome = true ∧
    (calculate_residuals 1 resWitnessObs resWitnessModel).2.1
      = Sum.inl resWitnessObs :=
  ⟨by with_unfolding_all decide,
   (input_mutation_summary 1 resWitnessObs resWitnessModel 3 3 []).2.1
     (by with_unfolding_all decide)⟩

/-- C9 counterexample: after `detect_outliers(window_length=3, threshold=3)`
runs on the spiked series, the caller's series object is no longer equal to
the series that was passed in — position 3 has been overwritten with NaN in
place.  The operation is therefore not a pure function over its inputs. -/
theorem detect_outliers_mutates_caller :
    detect_outliers_signal_after 3 3 spikeSeries ≠ spikeSeries := by
  with_unfolding_all decide

/-! ## NoiseBasisAnalyzer and Denoiser: magpysv/denoise.py, eigenvalue_analysis -/

/-- A residual matrix with `T` date rows and `N` data columns; `none` cells
are the masked/NaN entries. -/
abbrev OMat (T N : ℕ) := Fin T → Fin N → NVal

/-- One eigenpair as delivered by `np.linalg.eig` on the (N x N) masked
covariance matrix: an eigenvalue together with its column eigenvector. -/
structure EigPair (N : ℕ) where
  val : ℚ
  vec : Fin N → ℚ
deriving DecidableEq

/-- Insert an eigenpair into a list that is descending in `val`. -/
def insertPairDesc {N : ℕ} (p : EigPair N) : List (EigPair N) → List (EigPair N)
  | [] => [p]
  | q :: qs => if q.val ≤ p.val then p :: q :: qs else q :: insertPairDesc p qs

/-- The sort of denoise.py lines 207-211: `idx = np.argsort(eig_values)[::-1]`
applied to the eigenvalues AND, with the same index, to the eigenvector
columns — embedded as an insertion sort of the (value, vector) pairs by
descending eigenvalue.  np.argsort orders by the SIGNED value; ties have no
specified order in the source either (accepted nondeterminism per the
spec), so any sort by descending value is a faithful embedding. -/
def sortPairsDesc {N : ℕ} : List (EigPair N) → List (EigPair N)
  | [] => []
  | p :: ps => insertPairDesc p (sortPairsDesc ps)

/-- The default eigenpair produced by out-of-range list access (never used
by the in-range source accesses). -/
def dfltPair (N : ℕ) : EigPair N := ⟨0, fun _ => 0⟩

/-- Column `k` of the SORTED eigenvector matrix. -/
def vecAt {N : ℕ} (eigs : List (EigPair N)) (k : ℕ) : Fin N → ℚ :=
  ((sortPairsDesc eigs).getD k (dfltPair N)).vec

/-- One entry of `np.ma.dot(masked_residuals, eig_vectors)` (denoise.py
line 214): masked residual cells contribute 0 to the dot product, and the
result entry is itself masked exactly when the whole residual row is masked
(the eigenvector operand is unmasked, so `np.ma.dot` masks an output cell
only when no unmasked pair of operands contributed to it). -/
def maDotRow (T N : ℕ) (res : OMat T N) (t : Fin T) (v : Fin N → ℚ) : NVal :=
  if ∀ j, res t j = none then none
  else some (∑ j, fill0 (res t j) * v j)

/-- Column `k` of `projected_residuals`: the residual rows projected onto
sorted eigendirection `k`. -/
def projN (T N : ℕ) (res : OMat T N) (eigs : List (EigPair N))
    (t : Fin T) (k : ℕ) : NVal :=
  maDotRow T N res t (vecAt eigs k)

/-- `np.sum` over the first `n` entries of a masked row (denoise.py line
230): masked entries are skipped; the result is masked only if every entry
is masked. -/
def maSumRange (f : ℕ → NVal) (n : ℕ) : NVal :=
  if ∀ k, k < n → f k = none then none
  else some (∑ k ∈ Finset.range n, fill0 (f k))

/-- The NaN-propagating sum `Σ_{k<n} f k` (ordinary, unmasked IEEE
arithmetic): NaN if any summand is NaN. -/
def noptSum (f : ℕ → NVal) : ℕ → NVal
  | 0 => some 0
  | n + 1 => nadd (noptSum f n) (f n)

/-- The corrected residual cell for `proxy_number = 1` (denoise.py lines
222-227): `masked_residuals.data[idx, :] - proxy[idx] * noisy_direction`,
where `proxy = projected_residuals[:, 0]` and `noisy_direction` is sorted
eigenvector 0.  The `.data` array retains the original NaN entries, so a
missing residual stays NaN; a masked proxy (fully missing row) also makes
the cell NaN. -/
def corr1 (T N : ℕ) (res : OMat T N) (eigs : List (EigPair N))
    (t : Fin T) (j : Fin N) : NVal :=
  nsub (res t j) (nmul (projN T N res eigs t 0) (some (vecAt eigs 0 j)))

/-- The corrected residual cell for `proxy_number > 1` (denoise.py lines
228-236): starting from `masked_residuals.data[idx, :]`, the loop subtracts
`projected_residuals[idx, direction] * noisy_direction[:, direction]` for
each `direction < proxy_number` in turn. -/
def corrMulti (T N : ℕ) (res : OMat T N) (eigs : List (EigPair N))
    (pn : ℕ) (t : Fin T) (j : Fin N) : NVal :=
  (List.range pn).foldl
    (fun acc d => nsub acc (nmul (projN T N res eigs t d) (some (vecAt eigs d j))))
    (res t j)

/-- The tuple returned by `eigenvalue_analysis`: the denoised SV frame
(date column plus data columns), the proxy signal, the sorted eigenvalues
and eigenvectors, the projected residuals and the corrected residuals. -/
structure EAOut (T N : ℕ) where
  columns : List String
  dates : Fin T → ℤ
  denoised : Fin T → Fin N → NVal
  proxy : Fin T → NVal
  eig_values : List ℚ
  eig_vectors : List (Fin N → ℚ)
  projected : Fin T → Fin N → NVal
  corrected : Fin T → Fin N → NVal
deriving DecidableEq

/-- Embedding of `denoise.eigenvalue_analysis` (denoise.py lines 133-247),
the mask-policy denoiser.

The eigendecomposition itself is the library call
`np.linalg.eig(np.ma.cov(...))`; its output is taken here as the parameter
`eigs` (one eigenpair per covariance column, so `eigs.length = N` on every
source-reachable input).  Everything the source does with that output is
embedded: the joint sort by descending eigenvalue, the masked projection,
the Wardinski-Holme correction loops, the reconstruction
`corrected + model`, and the column labelling
(`columns=obs_data.columns` for the corrected frame, with `'date'`
inserted at position 0 of the denoised frame).

Failure cases (`none`) trace the source exactly:
* `proxy_number <= 0`: neither branch runs, `corrected_residuals` stays
  empty and `proxy` is never assigned, so the function raises
  (broadcast/length error on a nonempty frame, unbound local `proxy`
  otherwise) and returns nothing;
* `proxy_number > N` with at least one data row: the inner loop reaches
  `direction = N` and `projected_residuals[idx, N]` raises IndexError
  (with zero rows the loop body never runs and the call returns);
* `proxy_number > 1` with zero columns: `len(projected_residuals[:, 0])`
  in the loop header indexes column 0 of a zero-column array and raises
  IndexError whatever the row count;
* `proxy_number = 1` with zero columns: `eig_vectors[:, 0]` raises
  IndexError. -/
def eigenvalue_analysis (T N : ℕ) (dates : Fin T → ℤ) (obsCols : List String)
    (model_data : OMat T N) (residuals : OMat T N)
    (eigs : List (EigPair N)) (proxy_number : ℤ) : Option (EAOut T N) :=
  if proxy_number = 1 then
    if N = 0 then none else
    some { columns := "date" :: obsCols
           dates := dates
           denoised := fun t j => nadd (corr1 T N residuals eigs t j) (model_data t j)
           proxy := fun t => projN T N residuals eigs t 0
           eig_values := (sortPairsDesc eigs).map EigPair.val
           eig_vectors := (sortPairsDesc eigs).map EigPair.vec
           projected := fun t k => projN T N residuals eigs t (k : ℕ)
           corrected := fun t j => corr1 T N residuals eigs t j }
  else if 1 < proxy_number then
    if N = 0 ∨ (T ≠ 0 ∧ (N : ℤ) < proxy_number) then none else
    some { columns := "date" :: obsCols
           dates := dates
           denoised := fun t j =>
             nadd (corrMulti T N residuals eigs proxy_number.toNat t j) (model_data t j)
           proxy := fun t =>
             maSumRange (projN T N residuals eigs t) (min proxy_number.toNat N)
           eig_values := (sortPairsDesc eigs).map EigPair.val
           eig_vectors := (sortPairsDesc eigs).map EigPair.vec
           projected := fun t k => projN T N residuals eigs t (k : ℕ)
           corrected := fun t j => corrMulti T N residuals eigs proxy_number.toNat t j }
  else none

/-- Iterated NaN-propagating subtraction over `range n` equals a single
subtraction of the NaN-propagating sum. -/
theorem foldl_nsub_eq_nsub_noptSum (g : ℕ → NVal) (x : NVal) :
    ∀ n : ℕ, (List.range n).foldl (fun acc d => nsub acc (g d)) x
      = nsub x (noptSum g n) := by
  intro n
  induction n with
  | zero => simp [noptSum, nsub_some_zero]
  | succ n ih =>
    rw [List.range_succ, List.foldl_append, ih]
    simp only [List.foldl_cons, List.foldl_nil, noptSum]
    rw [nsub_nsub]

/-- The NaN-propagating sum only depends on the summands below `n`. -/
theorem noptSum_congr (f g : ℕ → NVal) :
    ∀ n : ℕ, (∀ k, k < n → f k = g k) → noptSum f n = noptSum g n := by
  intro n
  induction n with
  | zero => intro _; rfl
  | succ n ih =>
    intro h
    simp only [noptSum]
    rw [ih (fun k hk => h k (by omega)), h n (by omega)]

/-- Reading a mapped eigenvector list with the matching defaults. -/
theorem getD_map_vec {N : ℕ} (l : List (EigPair N)) :
    ∀ k : ℕ, (l.map EigPair.vec).getD k (fun _ => 0) = (l.getD k (dfltPair N)).vec := by
  induction l with
  | nil => intro k; rfl
  | cons p l ih =>
    intro k
    cases k with
    | zero => rfl
    | succ k =>
      simp only [List.map_cons, List.getD_cons_succ]
      exact ih k

/-- Column `k` of the returned `projected_residuals` array, read with a
natural-number index (`none` out of range; the source only reads columns
below the array width `N`). -/
def projCol {T N : ℕ} (out : EAOut T N) (t : Fin T) (k : ℕ) : NVal :=
  if h : k < N then out.projected t ⟨k, h⟩ else none

/-- C1: for any residual matrix, model matrix, eigenbasis and
`proxy_number` in `[1, N]` (`N` = column count), `eigenvalue_analysis`
returns a result whose corrected residuals satisfy, cellwise and with
NaN-propagating arithmetic,
`corrected[t] = residuals[t] - Σ_{k < proxy_number} projected[t,k] * eigenvector_k`
(both `projected` and `eig_vectors` being the RETURNED, sorted arrays),
whose denoised SV is `corrected + model_data`, and whose columns are the
obs columns in their original order behind the inserted date column. -/
theorem denoise_corrected_reconstruction (T N : ℕ) (dates : Fin T → ℤ)
    (obsCols : List String) (model_data res : OMat T N) (eigs : List (EigPair N))
    (pn : ℤ) (h1 : 1 ≤ pn) (h2 : pn ≤ (N : ℤ)) :
    (eigenvalue_analysis T N dates obsCols model_data res eigs pn).isSome = true ∧
    ∀ out, eigenvalue_analysis T N dates obsCols model_data res eigs pn = some out →
      out.columns = "date" :: obsCols ∧
      (∀ t j, out.denoised t j = nadd (out.corrected t j) (model_data t j)) ∧
      (∀ t j, out.corrected t j =
        nsub (res t j)
          (noptSum (fun k => nmul (projCol out t k)
            (some (out.eig_vectors.getD k (fun _ => 0) j))) pn.toNat)) := by
  have hN : 0 < N := by omega
  rcases eq_or_lt_of_le h1 with hpn1 | hpn2
  · -- proxy_number = 1
    have hEA : eigenvalue_analysis T N dates obsCols model_data res eigs pn =
        some { columns := "date" :: obsCols
               dates := dates
               denoised := fun t j =>
                 nadd (corr1 T N res eigs t j) (model_data t j)
               proxy := fun t => projN T N res eigs t 0
               eig_values := (sortPairsDesc eigs).map EigPair.val
               eig_vectors := (sortPairsDesc eigs).map EigPair.vec
               projected := fun t k => projN T N res eigs t (k : ℕ)
               corrected := fun t j => corr1 T N res eigs t j } := by
      unfold eigenvalue_analysis
      rw [if_pos hpn1.symm, if_neg (by omega)]
    refine ⟨by rw [hEA]; rfl, ?_⟩
    intro out hout
    rw [hEA, Option.some.injEq] at hout
    subst hout
    refine ⟨rfl, fun t j => rfl, fun t j => ?_⟩
    have hg0 : (fun k => nmul (projCol (T := T) (N := N)
        { columns := "date" :: obsCols
          dates := dates
          denoised := fun t j => nadd (corr1 T N res eigs t j) (model_data t j)
          proxy := fun t => projN T N res eigs t 0
          eig_values := (sortPairsDesc eigs).map EigPair.val
          eig_vectors := (sortPairsDesc eigs).map EigPair.vec
          projected := fun t k => projN T N res eigs t (k : ℕ)
          corrected := fun t j => corr1 T N res eigs t j } t k)
        (some (((sortPairsDesc eigs).map EigPair.vec).getD k (fun _ => 0) j))) 0
        = nmul (projN T N res eigs t 0) (some (vecAt eigs 0 j)) := by
      simp only [projCol, dif_pos hN, getD_map_vec]
      rfl
    have hpn : pn.toNat = 1 := by omega
    rw [hpn]
    simp only [noptSum, hg0, nadd_some_zero_left]
    rfl
  · -- proxy_number > 1
    have hguard : ¬ (N = 0 ∨ (T ≠ 0 ∧ (N : ℤ) < pn)) := by omega
    have hEA : eigenvalue_analysis T N dates obsCols model_data res eigs pn =
        some { columns := "date" :: obsCols
               dates := dates
               denoised := fun t j =>
                 nadd (corrMulti T N res eigs pn.toNat t j) (model_data t j)
               proxy := fun t =>
                 maSumRange (projN T N res eigs t) (min pn.toNat N)
               eig_values := (sortPairsDesc eigs).map EigPair.val
               eig_vectors := (sortPairsDesc eigs).map EigPair.vec
               projected := fun t k => projN T N res eigs t (k : ℕ)
               corrected := fun t j => corrMulti T N res eigs pn.toNat t j } := by
      unfold eigenvalue_analysis
      rw [if_neg (by omega), if_pos hpn2, if_neg hguard]
    refine ⟨by rw [hEA]; rfl, ?_⟩
    intro out hout
    rw [hEA, Option.some.injEq] at hout
    subst hout
    refine ⟨rfl, fun t j => rfl, fun t j => ?_⟩
    show corrMulti T N res eigs pn.toNat t j = _
    unfold corrMulti
    rw [foldl_nsub_eq_nsub_noptSum]
    congr 1
    refine noptSum_congr _ _ pn.toNat (fun k hk => ?_)
    have hkN : k < N := by omega
    simp only [projCol, dif_pos hkN, getD_map_vec]
    rfl

theorem perm_insertPairDesc {N : ℕ} (p : EigPair N) (l : List (EigPair N)) :
    List.Perm (insertPairDesc p l) (p :: l) := by
  induction l with
  | nil => exact List.Perm.refl _
  | cons q qs ih =>
    unfold insertPairDesc
    by_cases h : q.val ≤ p.val
    · rw [if_pos h]
    · rw [if_neg h]
      exact (List.Perm.cons q ih).trans (List.Perm.swap p q qs)

theorem mem_insertPairDesc {N : ℕ} (p b : EigPair N) (l : List (EigPair N)) :
    b ∈ insertPairDesc p l ↔ b = p ∨ b ∈ l := by
  rw [(perm_insertPairDesc p l).mem_iff, List.mem_cons]

theorem sorted_insertPairDesc {N : ℕ} (p : EigPair N) (l : List (EigPair N))
    (hl : List.Sorted (fun a b : EigPair N => b.val ≤ a.val) l) :
    List.Sorted (fun a b : EigPair N => b.val ≤ a.val) (insertPairDesc p l) := by
  induction l with
  | nil => simp [insertPairDesc]
  | cons q qs ih =>
    rw [List.sorted_cons] at hl
    obtain ⟨hq, hqs⟩ := hl
    unfold insertPairDesc
    by_cases h : q.val ≤ p.val
    · rw [if_pos h, List.sorted_cons]
      refine ⟨fun b hb => ?_, by rw [List.sorted_cons]; exact ⟨hq, hqs⟩⟩
      rcases List.mem_cons.1 hb with rfl | hb
      · exact h
      · exact le_trans (hq b hb) h
    · rw [if_neg h, List.sorted_cons]
      refine ⟨fun b hb => ?_, ih hqs⟩
      rcases (mem_insertPairDesc p b qs).1 hb with rfl | hb
      · exact le_of_lt (lt_of_not_le h)
      · exact hq b hb

theorem perm_sortPairsDesc {N : ℕ} (l : List (EigPair N)) :
    List.Perm (sortPairsDesc l) l := by
  induction l with
  | nil => exact List.Perm.refl _
  | cons p ps ih =>
    exact (perm_insertPairDesc p (sortPairsDesc ps)).trans (List.Perm.cons p ih)

theorem sorted_sortPairsDesc {N : ℕ} (l : List (EigPair N)) :
    List.Sorted (fun a b : EigPair N => b.val ≤ a.val) (sortPairsDesc l) := by
  induction l with
  | nil => simp [sortPairsDesc]
  | cons p ps ih => exact sorted_insertPairDesc p (sortPairsDesc ps) ih

theorem zip_map_pair {N : ℕ} (l : List (EigPair N)) :
    (l.map EigPair.val).zip (l.map EigPair.vec)
      = l.map (fun e => (e.val, e.vec)) := by
  induction l with
  | nil => rfl
  | cons p l ih => simp [ih]

/-- Both success branches of `eigenvalue_analysis` return the same sorted
eigenvalue and eigenvector fields. -/
theorem ea_eig_fields (T N : ℕ) (dates : Fin T → ℤ) (obsCols : List String)
    (model_data res : OMat T N) (eigs : List (EigPair N)) (pn : ℤ)
    (out : EAOut T N)
    (hEA : eigenvalue_analysis T N dates obsCols model_data res eigs pn = some out) :
    out.eig_values = (sortPairsDesc eigs).map EigPair.val ∧
    out.eig_vectors = (sortPairsDesc eigs).map EigPair.vec := by
  unfold eigenvalue_analysis at hEA
  split_ifs at hEA <;>
    (rw [Option.some.injEq] at hEA
     subst hEA
     exact ⟨rfl, rfl⟩)

/-- C2 (amended): the eigenvalues returned by `eigenvalue_analysis` are
sorted by DESCENDING SIGNED VALUE (`np.argsort(eig_values)[::-1]` orders by
value, not absolute value), and the eigenvectors are permuted by the same
index: the returned (value, vector) pairs are a permutation of the input
eigenpairs with the pairing intact.  Whenever every eigenvalue is
nonnegative — e.g. for the impute policy, whose variances are nonnegative
and already ordered — the order coincides with descending absolute value,
and eigenvector 0 is then the dominant noise direction. -/
theorem eigsort_value_descending_pairing (T N : ℕ) (dates : Fin T → ℤ)
    (obsCols : List String) (model_data res : OMat T N)
    (eigs : List (EigPair N)) (pn : ℤ) (out : EAOut T N)
    (hEA : eigenvalue_analysis T N dates obsCols model_data res eigs pn = some out) :
    List.Sorted (fun a b : ℚ => b ≤ a) out.eig_values ∧
    List.Perm (out.eig_values.zip out.eig_vectors)
      (eigs.map (fun e => (e.val, e.vec))) ∧
    ((∀ e ∈ eigs, 0 ≤ e.val) →
      List.Sorted (fun a b : ℚ => |b| ≤ |a|) out.eig_values) := by
  obtain ⟨hv, hw⟩ := ea_eig_fields T N dates obsCols model_data res eigs pn out hEA
  rw [hv, hw]
  have hs := sorted_sortPairsDesc eigs
  refine ⟨List.Pairwise.map _ (fun a b h => h) hs, ?_, ?_⟩
  · rw [zip_map_pair]
    exact (perm_sortPairsDesc eigs).map _
  · intro hnn
    have hmem : ∀ e ∈ sortPairsDesc eigs, 0 ≤ e.val :=
      fun e he => hnn e ((perm_sortPairsDesc eigs).subset he)
    have habs : List.Pairwise (fun a b : EigPair N => |b.val| ≤ |a.val|)
        (sortPairsDesc eigs) := by
      refine List.Pairwise.imp_of_mem ?_ hs
      intro a b ha hb hab
      rw [abs_of_nonneg (hmem b hb), abs_of_nonneg (hmem a ha)]
      exact hab
    exact List.Pairwise.map _ (fun a b h => h) habs

/-- Dates column of the one-row concrete inputs. -/
def eaDates : Fin 1 → ℤ := fun _ => 0

/-- Column labels of the concrete inputs. -/
def eaCols : List String := ["X_ngk", "Y_ngk"]

/-- Concrete one-row model matrix. -/
def eaModel : OMat 1 2 := fun _ _ => some 1

/-- Concrete one-row residual matrix with a missing second cell. -/
def eaRes : OMat 1 2 := fun _ j => if j = 0 then some 3 else none

/-- Concrete eigenpairs with nonnegative eigenvalues. -/
def eaEigs : List (EigPair 2) :=
  [⟨2, fun j => if j = 0 then 1 else 0⟩, ⟨5, fun j => if j = 0 then 0 else 1⟩]

/-- Concrete eigenpairs with one negative, large-magnitude eigenvalue, the
shape produced by an indefinite pairwise-deletion covariance matrix. -/
def negEigs : List (EigPair 2) :=
  [⟨1, fun j => if j = 0 then 1 else 0⟩, ⟨-5, fun j => if j = 0 then 0 else 1⟩]

/-- C2 counterexample: on the eigenbasis with eigenvalues `{1, -5}` the
returned `eig_values` are `[1, -5]` — descending by signed value — which is
NOT sorted by descending absolute value (`|-5| > |1|`), refuting the claim
as stated for the mask policy. -/
theorem eigsort_abs_counterexample :
    (eigenvalue_analysis 1 2 eaDates eaCols eaModel eaRes negEigs 1).map
      EAOut.eig_values = some [1, -5] ∧
    ¬ List.Sorted (fun a b : ℚ => |b| ≤ |a|) [1, -5] := by
  constructor
  · with_unfolding_all decide
  · intro h
    have h5 := List.rel_of_sorted_cons h (-5) (by simp)
    rw [abs_of_nonneg (by norm_num : (0:ℚ) ≤ 1)] at h5
    rw [abs_of_nonpos (by norm_num : (-5:ℚ) ≤ 0)] at h5
    norm_num at h5

theorem eigsort_value_descending_pairing_witness :
    (eigenvalue_analysis 1 2 eaDates eaCols eaModel eaRes eaEigs 1).elim False
      (fun o => List.Sorted (fun a b : ℚ => b ≤ a) o.eig_values) := by
  cases hEA : eigenvalue_analysis 1 2 eaDates eaCols eaModel eaRes eaEigs 1 with
  | none => exact absurd hEA (by with_unfolding_all decide)
  | some o =>
    exact (eigsort_value_descending_pairing 1 2 eaDates eaCols eaModel eaRes
      eaEigs 1 o hEA).1

theorem denoise_corrected_reconstruction_witness :
    ((1 : ℤ) ≤ 2 ∧ (2 : ℤ) ≤ ((2 : ℕ) : ℤ)) ∧
    (eigenvalue_analysis 1 2 eaDates eaCols eaModel eaRes eaEigs 2).isSome = true :=
  ⟨⟨by norm_num, by norm_num⟩,
   (denoise_corrected_reconstruction 1 2 eaDates eaCols eaModel eaRes eaEigs 2
     (by norm_num) (by norm_num)).1⟩

/-- NaN-propagating iterated subtraction starting from NaN stays NaN. -/
theorem foldl_nsub_none (g : ℕ → NVal) (l : List ℕ) :
    l.foldl (fun acc d => nsub acc (g d)) none = none := by
  induction l with
  | nil => rfl
  | cons d l ih =>
    simp only [List.foldl_cons]
    rw [nsub_none_left]
    exact ih

/-- C3: under the mask policy, any cell that is "no value" in the input
residual matrix is "no value" in the returned `denoised_sv` (and in the
corrected residuals): `masked_residuals.data` retains the NaN, every
subtraction against it stays NaN (also when the subtrahend is a masked
proxy), and adding the model value back keeps it NaN.  An all-missing
residual column is the columnwise instance; no missing position ever
receives a numeric value. -/
theorem mask_policy_preserves_missing (T N : ℕ) (dates : Fin T → ℤ)
    (obsCols : List String) (model_data res : OMat T N)
    (eigs : List (EigPair N)) (pn : ℤ) (out : EAOut T N)
    (hEA : eigenvalue_analysis T N dates obsCols model_data res eigs pn = some out)
    (t : Fin T) (j : Fin N) (hm : res t j = none) :
    out.denoised t j = none ∧ out.corrected t j = none := by
  have hc1 : corr1 T N res eigs t j = none := by
    unfold corr1
    rw [hm]
    rfl
  have hcm : corrMulti T N res eigs pn.toNat t j = none := by
    unfold corrMulti
    rw [hm]
    exact foldl_nsub_none _ _
  unfold eigenvalue_analysis at hEA
  split_ifs at hEA <;>
    (rw [Option.some.injEq] at hEA
     subst hEA)
  · exact ⟨by show nadd (corr1 T N res eigs t j) _ = none; rw [hc1]; rfl, hc1⟩
  · exact ⟨by show nadd (corrMulti T N res eigs pn.toNat t j) _ = none; rw [hcm]; rfl, hcm⟩

theorem mask_policy_preserves_missing_witness :
    eaRes 0 1 = none ∧
    (eigenvalue_analysis 1 2 eaDates eaCols eaModel eaRes eaEigs 1).map
      (fun o => o.denoised 0 1) = some none := by
  refine ⟨by decide, ?_⟩
  cases hEA : eigenvalue_analysis 1 2 eaDates eaCols eaModel eaRes eaEigs 1 with
  | none => exact absurd hEA (by with_unfolding_all decide)
  | some o =>
    show some (o.denoised 0 1) = some none
    exact congrArg some (mask_policy_preserves_missing 1 2 eaDates eaCols eaModel
      eaRes eaEigs 1 o hEA 0 1 (by decide)).1

/-- C7 (amended): on a residual matrix with at least one row, calling the
denoiser with `proxy_number` outside `[1, N]` — in particular 0 — raises
synchronously (unbound `proxy` / shape mismatch for `proxy_number <= 0`,
IndexError past the last eigenvector column for `proxy_number > N`) and
returns no result. -/
theorem invalid_proxy_count_fails (T N : ℕ) (dates : Fin T → ℤ)
    (obsCols : List String) (model_data res : OMat T N)
    (eigs : List (EigPair N)) (pn : ℤ)
    (hT : 1 ≤ T) (h : pn < 1 ∨ (N : ℤ) < pn) :
    eigenvalue_analysis T N dates obsCols model_data res eigs pn = none := by
  unfold eigenvalue_analysis
  rcases h with h | h
  · rw [if_neg (by omega), if_neg (by omega)]
  · by_cases hp1 : pn = 1
    · rw [if_pos hp1, if_pos (by omega)]
    · by_cases hp2 : 1 < pn
      · rw [if_neg hp1, if_pos hp2, if_pos (Or.inr ⟨by omega, h⟩)]
      · rw [if_neg hp1, if_neg hp2]

theorem invalid_proxy_count_fails_witness :
    1 ≤ 1 ∧
    eigenvalue_analysis 1 1 (fun _ => 0) ["X_ngk"] (fun _ _ => some 0)
      (fun _ _ => some 0) [⟨1, fun _ => 1⟩] 0 = none :=
  ⟨le_refl 1,
   invalid_proxy_count_fails 1 1 (fun _ => 0) ["X_ngk"] (fun _ _ => some 0)
     (fun _ _ => some 0) [⟨1, fun _ => 1⟩] 0 (le_refl 1) (Or.inl (by norm_num))⟩

/-- C7 counterexample: with an EMPTY residual matrix (zero rows, one
column) and `proxy_number = 2 > 1 =` column count, the correction loop body
never runs, nothing raises, and `eigenvalue_analysis` RETURNS a result —
so "proxy_count outside [1, column count] fails rather than returning a
result" does not hold of every call. -/
theorem proxy_count_above_columns_empty_returns :
    (eigenvalue_analysis 0 1 (fun _ => 0) ["X_ngk"] (fun _ _ => some 0)
      (fun _ _ => some 0) [⟨1, fun _ => 1⟩] 2).isSome = true := by
  with_unfolding_all decide

/-! ## The two covariance policies (C4) -/

/-- Number of present (non-masked) cells in column `j`. -/
def presentCount (T N : ℕ) (X : OMat T N) (j : Fin N) : ℕ :=
  (Finset.univ.filter fun t => (X t j).isSome).card

/-- Number of rows where columns `j` and `k` are BOTH present — the
pairwise-deletion overlap count of `np.ma.cov`. -/
def pairCount (T N : ℕ) (X : OMat T N) (j k : Fin N) : ℕ :=
  (Finset.univ.filter fun t => (X t j).isSome ∧ (X t k).isSome).card

/-- The masked column mean `x.mean(axis=0)` of `np.ma.cov`: mean of the
present entries, masked when the column is entirely masked. -/
def maColMean (T N : ℕ) (X : OMat T N) (j : Fin N) : NVal :=
  if presentCount T N X j = 0 then none
  else some ((∑ t, fill0 (X t j)) / (presentCount T N X j : ℚ))

/-- A centered cell `x -= x.mean(axis=0)`: masked cells stay masked. -/
def maCentered (T N : ℕ) (X : OMat T N) (t : Fin T) (j : Fin N) : NVal :=
  nsub (X t j) (maColMean T N X j)

/-- Embedding of `np.ma.cov(masked_residuals, rowvar=False,
allow_masked=True)` (denoise.py line 203): columns are centered by their
masked means, the dot product fills masked cells with zero (so only rows
where both columns are present contribute), and the normalisation is
`overlap - 1` (`bias=False`, `ddof=1`).  A cell is masked when no row has
both columns present (the `ma.dot` output mask) or when the divisor
`overlap - 1` is zero (masked division by zero) — i.e. when `overlap <= 1`. -/
def ma_cov (T N : ℕ) (X : OMat T N) (j k : Fin N) : NVal :=
  if pairCount T N X j k ≤ 1 then none
  else some ((∑ t, fill0 (maCentered T N X t j) * fill0 (maCentered T N X t k))
    / ((pairCount T N X j k : ℚ) - 1))

/-- Plain column mean of a fully observed matrix. -/
def colMean (T N : ℕ) (Y : Fin T → Fin N → ℚ) (j : Fin N) : ℚ :=
  (∑ t, Y t j) / (T : ℚ)

/-- Sample covariance (divisor `T - 1`) of a fully observed matrix. -/
def sample_cov (T N : ℕ) (Y : Fin T → Fin N → ℚ) (j k : Fin N) : ℚ :=
  (∑ t, (Y t j - colMean T N Y j) * (Y t k - colMean T N Y k)) / ((T : ℚ) - 1)

/-- Modelled from the spec: the sklearn `Imputer(missing_values='NaN',
strategy='mean', axis=0)` used by `eigenvalue_analysis_impute` (denoise.py
lines 92-93) is not part of this repository; per spec section 4.3 the
impute policy "first fills every no-value with the column mean (computed
per column, ignoring missing entries)". -/
def imputer_fill (T N : ℕ) (X : OMat T N) : Fin T → Fin N → ℚ :=
  fun t j =>
    match X t j with
    | some v => v
    | none => fill0 (maColMean T N X j)

/-- Modelled from the spec: the sklearn PCA call of
`eigenvalue_analysis_impute` (denoise.py lines 95-97) is not part of this
repository; per spec section 4.3 the impute policy "performs the
eigendecomposition via singular-value decomposition of the fully-observed,
imputed matrix", so the eigenvalue outputs (`explained_variance_`) are the
eigenvalues of THIS matrix: the sample covariance of the imputed matrix. -/
def impute_eig_matrix (T N : ℕ) (X : OMat T N) : Fin N → Fin N → ℚ :=
  fun j k => sample_cov T N (imputer_fill T N X) j k

/-- C4: on a complete residual matrix (no missing cells, at least two
rows), the covariance matrix that the mask policy eigendecomposes equals,
cell for cell, the covariance matrix whose eigenvalues the impute policy
reports (imputation is the identity on complete data) — hence ANY
eigenvalue routine applied to the two matrices returns identical results,
and the two policies' eigenvalue sets agree exactly, a fortiori up to
sign, permutation and floating-point tolerance. -/
theorem mask_impute_same_covariance (T N : ℕ) (X : OMat T N)
    (Y : Fin T → Fin N → ℚ) (hT : 2 ≤ T) (hc : ∀ t j, X t j = some (Y t j)) :
    (∀ j k, ma_cov T N X j k = some (impute_eig_matrix T N X j k)) ∧
    ∀ eigsOf : (Fin N → Fin N → ℚ) → List ℚ,
      eigsOf (fun j k => fill0 (ma_cov T N X j k))
        = eigsOf (impute_eig_matrix T N X) := by
  have hp : ∀ j, presentCount T N X j = T := by
    intro j
    unfold presentCount
    have heq : (Finset.univ.filter fun t => (X t j).isSome) = Finset.univ := by
      refine Finset.filter_true_of_mem ?_
      intro t _
      rw [hc t j]
      rfl
    rw [heq, Finset.card_univ, Fintype.card_fin]
  have hpair : ∀ j k, pairCount T N X j k = T := by
    intro j k
    unfold pairCount
    have heq : (Finset.univ.filter fun t => (X t j).isSome ∧ (X t k).isSome)
        = Finset.univ := by
      refine Finset.filter_true_of_mem ?_
      intro t _
      rw [hc t j, hc t k]
      exact ⟨rfl, rfl⟩
    rw [heq, Finset.card_univ, Fintype.card_fin]
  have hmean : ∀ j, maColMean T N X j = some (colMean T N Y j) := by
    intro j
    unfold maColMean colMean
    rw [if_neg (by rw [hp]; omega), hp j]
    have hsum : (∑ t, fill0 (X t j)) = ∑ t, Y t j :=
      Finset.sum_congr rfl fun t _ => by rw [hc t j]; rfl
    rw [hsum]
  have hfix : imputer_fill T N X = Y := by
    funext t j
    unfold imputer_fill
    rw [hc t j]
  have hpt : ∀ j k, ma_cov T N X j k = some (impute_eig_matrix T N X j k) := by
    intro j k
    have hcent : ∀ (t : Fin T) (i : Fin N),
        maCentered T N X t i = some (Y t i - colMean T N Y i) := by
      intro t i
      unfold maCentered
      rw [hc t i, hmean i]
      rfl
    unfold ma_cov
    rw [if_neg (by rw [hpair]; omega)]
    unfold impute_eig_matrix
    rw [hfix]
    unfold sample_cov
    have hsum : (∑ t, fill0 (maCentered T N X t j) * fill0 (maCentered T N X t k))
        = ∑ t, (Y t j - colMean T N Y j) * (Y t k - colMean T N Y k) :=
      Finset.sum_congr rfl fun t _ => by rw [hcent t j, hcent t k]; rfl
    rw [hsum, hpair]
  refine ⟨hpt, fun eigsOf => ?_⟩
  congr 1
  funext j k
  rw [hpt j k]
  rfl

/-- Concrete complete two-row, one-column residual matrix. -/
def covX : OMat 2 1 := fun t _ => if t = 0 then some 1 else some 3

/-- The same matrix with the option layer stripped. -/
def covY : Fin 2 → Fin 1 → ℚ := fun t _ => if t = 0 then 1 else 3

theorem mask_impute_same_covariance_witness :
    (2 ≤ 2 ∧ (∀ t j, covX t j = some (covY t j))) ∧
    ∀ j k, ma_cov 2 1 covX j k = some (impute_eig_matrix 2 1 covX j k) :=
  ⟨⟨le_refl 2, by decide⟩,
   (mask_impute_same_covariance 2 1 covX covY (le_refl 2) (by decide)).1⟩
